import Mathlib

/-!
Verification of the objc2 repository specification against its sources.

Part 1: the header-translator's global analysis (src/crates/header-translator/
src/global_analysis.rs), embedded faithfully.  The auxiliary types `Method`,
`Stmt` and `T` live in files not present in the sources, so `Method` keeps
only the fields the analysis reads and the statement type is parametric over
the unknown payload types (the underlying C type `T`, availability `A`,
kind `K`, and enum-variant `V`), with `is_typedef_to` an abstract Boolean
predicate.

Part 2: the NSImageResizingMode constants from
src/crates/icrate/src/AppKit/fixes/mod.rs and
src/crates/icrate/src/additions/AppKit/image.rs.
-/

namespace HeaderTranslator

/-- The fields of `Method` read by `update_file` (crate::method::Method). -/
structure Method where
  fn_name : String
  selector : String
  is_class : Bool
deriving DecidableEq

/-- Statements of a `File`, keeping exactly the structure `update_file`
matches on.  `methodsDecl`, `categoryDecl` and `protocolDecl` stand for
`Stmt::ExternMethods`, `Stmt::ExternCategory` and `Stmt::ProtocolDecl`
(each pairing the class/protocol identifier name with its method list);
`aliasDecl` and `enumDecl` stand for `Stmt::AliasDecl` / `Stmt::EnumDecl`
with their unused payloads abstracted to type parameters. -/
inductive Stmt (T A K V : Type) where
  | methodsDecl (cls : String) (methods : List Method)
  | categoryDecl (cls : String) (methods : List Method)
  | protocolDecl (id : String) (methods : List Method)
  | aliasDecl (id : String) (avail : A) (ty : T) (kind : Option K)
  | enumDecl (id : String) (avail : A) (ty : T) (kind : Option K)
      (variants : List V) (sendable : Option Bool)
  | otherStmt

/-- `selector.replace(':', "_")` from the clash branch of `update_file`
(the replacement string has length one, so a character map is exact). -/
def replaceColons (s : String) : String :=
  String.mk (s.data.map fun c => if c = ':' then '_' else c)

variable {T A K V : Type}

/-- The `(id.name, methods)` view of a statement, as matched by the first
loop of `update_file`; `none` for the statements its `_ => {}` arm skips. -/
def Stmt.methodsOf : Stmt T A K V → Option (String × List Method)
  | .methodsDecl cls ms => some (cls, ms)
  | .categoryDecl cls ms => some (cls, ms)
  | .protocolDecl id ms => some (id, ms)
  | _ => none

/-- Replace a statement's method list (used to model in-place mutation of a
`Method` reached through the `names` map or the current iterator). -/
def Stmt.setMethods : Stmt T A K V → List Method → Stmt T A K V
  | .methodsDecl cls _, ms => .methodsDecl cls ms
  | .categoryDecl cls _, ms => .categoryDecl cls ms
  | .protocolDecl id _, ms => .protocolDecl id ms
  | s, _ => s

/-- Location of a method in a file: statement index and method index. -/
abbrev Loc := Nat × Nat

/-- Read the method at a location (together with its class name). -/
def getMethodAt (stmts : List (Stmt T A K V)) (loc : Loc) :
    Option (String × Method) :=
  match stmts.get? loc.1 with
  | none => none
  | some stmt =>
    match stmt.methodsOf with
    | none => none
    | some (cls, ms) =>
      match ms.get? loc.2 with
      | none => none
      | some m => some (cls, m)

/-- Write the method at a location, modelling mutation through a stored
`&mut Method` reference. -/
def setMethodAt (stmts : List (Stmt T A K V)) (loc : Loc) (m : Method) :
    List (Stmt T A K V) :=
  match stmts.get? loc.1 with
  | none => stmts
  | some stmt =>
    match stmt.methodsOf with
    | none => stmts
    | some (_, ms) => stmts.set loc.1 (stmt.setMethods (ms.set loc.2 m))

/-- The `names : BTreeMap<(String, String), &mut Method>` map, modelled as
an association list from keys to the location of the referenced method
(BTreeMap keys are unique, so an association list is an exact model). -/
abbrev NamesMap := List ((String × String) × Loc)

/-- `names.get_mut(&key)` (unique keys, so first match suffices). -/
def lookupName (names : NamesMap) (key : String × String) : Option Loc :=
  match names with
  | [] => none
  | (k, loc) :: rest => if k = key then some loc else lookupName rest key

/-- One iteration of the inner `for method in methods.iter_mut()` loop of
`update_file`, at the method location `loc`: compute the key
`(id.clone().name, method.fn_name.clone())`, look it up in `names`, and
either disambiguate against the previously stored method or insert. -/
def disambiguateStep (acc : List (Stmt T A K V) × NamesMap) (loc : Loc) :
    List (Stmt T A K V) × NamesMap :=
  let (stmts, names) := acc
  match getMethodAt stmts loc with
  | none => acc
  | some (cls, m) =>
    let key := (cls, m.fn_name)
    match lookupName names key with
    | some loc2 =>
      match getMethodAt stmts loc2 with
      | none => acc
      | some (_, other) =>
        match m.is_class, other.is_class with
        | true, false =>
          (setMethodAt stmts loc { m with fn_name := m.fn_name ++ "_class" },
           names)
        | false, true =>
          (setMethodAt stmts loc2
             { other with fn_name := other.fn_name ++ "_class" },
           names)
        | true, true =>
          (setMethodAt
             (setMethodAt stmts loc2
                { other with fn_name := replaceColons other.selector })
             loc { m with fn_name := replaceColons m.selector },
           names)
        | false, false =>
          (setMethodAt
             (setMethodAt stmts loc2
                { other with fn_name := replaceColons other.selector })
             loc { m with fn_name := replaceColons m.selector },
           names)
    | none => (stmts, (key, loc) :: names)

/-- All method locations of a file, in the iteration order of the two
nested loops.  Method-list lengths are not changed by the analysis, so the
locations can be computed up front. -/
def methodLocs (stmts : List (Stmt T A K V)) : List Loc :=
  (List.range stmts.length).flatMap fun i =>
    match stmts.get? i with
    | none => []
    | some stmt =>
      match stmt.methodsOf with
      | none => []
      | some (_, ms) => (List.range ms.length).map fun j => (i, j)

/-- The first loop of `update_file`: disambiguate duplicate fn_names. -/
def disambiguate (stmts : List (Stmt T A K V)) : List (Stmt T A K V) :=
  ((methodLocs stmts).foldl disambiguateStep (stmts, [])).1

/-- The second loop of `update_file`: fix up typedef + enum declarations.
An `AliasDecl` with `kind: None` immediately followed by an `EnumDecl`
whose type `is_typedef_to` the alias's name is dropped, and the enum takes
over the alias's id and type (keeping its own kind, variants, sendable). -/
def fixupAliasEnum (itt : T → String → Bool) :
    List (Stmt T A K V) → List (Stmt T A K V)
  | [] => []
  | .aliasDecl id av ty none :: .enumDecl eid eav ety k v s :: rest2 =>
    if itt ety id then
      fixupAliasEnum itt (.enumDecl id eav ty k v s :: rest2)
    else
      Stmt.aliasDecl id av ty none ::
        fixupAliasEnum itt (.enumDecl eid eav ety k v s :: rest2)
  | stmt :: rest => stmt :: fixupAliasEnum itt rest
termination_by l => l.length

/-- `update_file` (global_analysis.rs): the name-disambiguation loop
followed by the typedef+enum fixup loop, on a file's statement list. -/
def updateFile (itt : T → String → Bool) (stmts : List (Stmt T A K V)) :
    List (Stmt T A K V) :=
  fixupAliasEnum itt (disambiguate stmts)

/-- Whether a statement is an `AliasDecl` with `kind: None` (the only
statement the fixup loop can remove). -/
def Stmt.isAliasNone : Stmt T A K V → Bool
  | .aliasDecl _ _ _ none => true
  | _ => false

/-- Whether a statement list starts with an `EnumDecl`. -/
def enumHeaded : List (Stmt T A K V) → Bool
  | .enumDecl _ _ _ _ _ _ :: _ => true
  | _ => false

end HeaderTranslator

namespace ImageResizing

/-- `TARGET_ABI_USES_IOS_VALUES` (AppKit/fixes/mod.rs) as a function of the
two configuration predicates it reads:
`!cfg!(any(target_arch = "x86", target_arch = "x86_64"))
 || cfg!(not(target_os = "macos"))`. -/
def target_abi_uses_ios_values (arch_is_x86_or_x86_64 : Bool)
    (os_is_macos : Bool) : Bool :=
  !arch_is_x86_or_x86_64 || !os_is_macos

/-- `NSImageResizingModeStretch` from the `ns_enum!` declaration in
AppKit/fixes/mod.rs (underlying type NSInteger, modelled as Int). -/
def nsImageResizingModeStretch_enum (abi_uses_ios : Bool) : Int :=
  if abi_uses_ios then 0 else 1

/-- `NSImageResizingModeTile` from the `ns_enum!` declaration in
AppKit/fixes/mod.rs. -/
def nsImageResizingModeTile_enum (abi_uses_ios : Bool) : Int :=
  if abi_uses_ios then 1 else 0

/-- `NSImageResizingMode::Stretch` associated const from
additions/AppKit/image.rs. -/
def nsImageResizingModeStretch_const (abi_uses_ios : Bool) : Int :=
  if abi_uses_ios then 0 else 1

/-- `NSImageResizingMode::Tile` associated const from
additions/AppKit/image.rs. -/
def nsImageResizingModeTile_const (abi_uses_ios : Bool) : Int :=
  if abi_uses_ios then 1 else 0

end ImageResizing

namespace Core

/-!
The CORE of the specification: the type-encoding scheme, dispatch,
ownership handles, weak references and autorelease scopes.  The modules
implementing these (`encode`, `message`, `id`, `weak`) are declared by
src/core/lib.rs but their files are not among the sources, so everything
in this namespace is modelled from the spec.
-/

/-- Modelled from the spec: the primitive Encoding kinds of the grammar in
spec section 6 — signed/unsigned integer widths, float widths, boolean,
void, `@` object, `:` selector, `#` class, `?` unknown/function-pointer
(the `encode` module is missing from the sources). -/
inductive Prim where
  | schar | uchar | sshort | ushort | sint | uint
  | slong | ulong | slonglong | ulonglong
  | floatK | doubleK | boolK | voidK
  | object | sel | cls | unknown
deriving DecidableEq

/-- Modelled from the spec: the single-character code of each primitive. -/
def Prim.toChar : Prim → Char
  | .schar => 'c' | .uchar => 'C' | .sshort => 's' | .ushort => 'S'
  | .sint => 'i' | .uint => 'I' | .slong => 'l' | .ulong => 'L'
  | .slonglong => 'q' | .ulonglong => 'Q'
  | .floatK => 'f' | .doubleK => 'd' | .boolK => 'B' | .voidK => 'v'
  | .object => '@' | .sel => ':' | .cls => '#' | .unknown => '?'

/-- Modelled from the spec: the recursive Encoding descriptor of spec
section 3 — primitive kind, pointer-to-Encoding, fixed-size array, named
struct/union with ordered field Encodings (the `encode` module is missing
from the sources).  Names are kept as character lists to match the wire
grammar directly. -/
inductive Encoding where
  | prim (p : Prim)
  | pointer (e : Encoding)
  | array (n : Nat) (e : Encoding)
  | structE (name : List Char) (fields : List Encoding)
  | unionE (name : List Char) (fields : List Encoding)

/-- Decimal digits of a natural number, most significant first
(auxiliary, fuel-driven). -/
def natDigitsAux : Nat → Nat → List Nat → List Nat
  | 0, _, acc => acc
  | fuel + 1, n, acc =>
    if n < 10 then n :: acc
    else natDigitsAux fuel (n / 10) (n % 10 :: acc)

/-- Decimal digits of a natural number, most significant first. -/
def natDigits (n : Nat) : List Nat := natDigitsAux (n + 1) n []

/-- The character of a decimal digit. -/
def digitChar (d : Nat) : Char :=
  if d = 0 then '0' else if d = 1 then '1' else if d = 2 then '2'
  else if d = 3 then '3' else if d = 4 then '4' else if d = 5 then '5'
  else if d = 6 then '6' else if d = 7 then '7' else if d = 8 then '8'
  else '9'

/-- Whether a character is a decimal digit (matching `digitChar`). -/
def isDigitCh (c : Char) : Bool :=
  c = '0' || c = '1' || c = '2' || c = '3' || c = '4' ||
  c = '5' || c = '6' || c = '7' || c = '8' || c = '9'

/-- The numeric value of a decimal digit character. -/
def digitVal (c : Char) : Nat :=
  if c = '0' then 0 else if c = '1' then 1 else if c = '2' then 2
  else if c = '3' then 3 else if c = '4' then 4 else if c = '5' then 5
  else if c = '6' then 6 else if c = '7' then 7 else if c = '8' then 8
  else 9

/-- The decimal spelling of a natural number (used by `[N<enc>]`). -/
def natToChars (n : Nat) : List Char := (natDigits n).map digitChar

mutual

/-- Modelled from the spec: serialization of an Encoding into the wire
grammar of spec section 6: single characters for primitives, `^` prefixed
pointers, `[N<enc>]` arrays, brace-delimited `name=<enc>...` structs and
paren-delimited unions. -/
def serialize : Encoding → List Char
  | .prim p => [p.toChar]
  | .pointer e => '^' :: serialize e
  | .array n e => '[' :: (natToChars n ++ serialize e ++ [']'])
  | .structE nm fs => '\x7b' :: (nm ++ '=' :: (serializeList fs ++ ['\x7d']))
  | .unionE nm fs => '(' :: (nm ++ '=' :: (serializeList fs ++ [')']))

/-- Concatenated serializations of a field list, in declaration order. -/
def serializeList : List Encoding → List Char
  | [] => []
  | e :: es => serialize e ++ serializeList es

end

/-- The primitive Encoding of a single-character code, if any. -/
def primOfChar (c : Char) : Option Prim :=
  if c = 'c' then some .schar else if c = 'C' then some .uchar
  else if c = 's' then some .sshort else if c = 'S' then some .ushort
  else if c = 'i' then some .sint else if c = 'I' then some .uint
  else if c = 'l' then some .slong else if c = 'L' then some .ulong
  else if c = 'q' then some .slonglong else if c = 'Q' then some .ulonglong
  else if c = 'f' then some .floatK else if c = 'd' then some .doubleK
  else if c = 'B' then some .boolK else if c = 'v' then some .voidK
  else if c = '@' then some .object else if c = ':' then some .sel
  else if c = '#' then some .cls else if c = '?' then some .unknown
  else none

/-- Consume leading decimal digits, accumulating their value. -/
def parseNatAux : List Char → Nat → Nat × List Char
  | [], acc => (acc, [])
  | c :: cs, acc =>
    if isDigitCh c then parseNatAux cs (acc * 10 + digitVal c)
    else (acc, c :: cs)

/-- Parse a nonempty run of decimal digits. -/
def parseNat : List Char → Option (Nat × List Char)
  | [] => none
  | c :: cs =>
    if isDigitCh c then some (parseNatAux cs (digitVal c)) else none

/-- Parse a struct/union name: the characters before the first `=`. -/
def parseName : List Char → Option (List Char × List Char)
  | [] => none
  | c :: cs =>
    if c = '=' then some ([], cs)
    else
      match parseName cs with
      | none => none
      | some (nm, r) => some (c :: nm, r)

mutual

/-- Modelled from the spec: a recursive-descent parser for the Encoding
wire grammar of spec section 6, fuel-driven (fuel bounds nesting depth). -/
def parseEnc : Nat → List Char → Option (Encoding × List Char)
  | 0, _ => none
  | _ + 1, [] => none
  | fuel + 1, c :: cs =>
    if c = '^' then
      match parseEnc fuel cs with
      | none => none
      | some (e, r) => some (.pointer e, r)
    else if c = '[' then
      match parseNat cs with
      | none => none
      | some (n, cs2) =>
        match parseEnc fuel cs2 with
        | none => none
        | some (e, cs3) =>
          match cs3 with
          | ']' :: cs4 => some (.array n e, cs4)
          | _ => none
    else if c = '\x7b' then
      match parseName cs with
      | none => none
      | some (nm, cs2) =>
        match parseFields fuel '\x7d' cs2 with
        | none => none
        | some (fs, r) => some (.structE nm fs, r)
    else if c = '(' then
      match parseName cs with
      | none => none
      | some (nm, cs2) =>
        match parseFields fuel ')' cs2 with
        | none => none
        | some (fs, r) => some (.unionE nm fs, r)
    else
      match primOfChar c with
      | none => none
      | some p => some (.prim p, cs)

/-- Parse the field Encodings of a struct/union up to the closing
delimiter `close`, consuming it. -/
def parseFields : Nat → Char → List Char → Option (List Encoding × List Char)
  | 0, _, _ => none
  | _ + 1, _, [] => none
  | fuel + 1, close, c :: cs =>
    if c = close then some ([], cs)
    else
      match parseEnc fuel (c :: cs) with
      | none => none
      | some (e, r) =>
        match parseFields fuel close r with
        | none => none
        | some (es, r2) => some (e :: es, r2)

end

/-- Modelled from the spec: parse a complete well-formed Encoding string;
the input must be consumed entirely. -/
def parse (s : List Char) : Option Encoding :=
  match parseEnc (s.length + 1) s with
  | some (e, []) => some e
  | _ => none

mutual

/-- Size measure of an Encoding: number of grammar nodes; the parser needs
at least this much fuel. -/
def esize : Encoding → Nat
  | .prim _ => 1
  | .pointer e => esize e + 1
  | .array _ e => esize e + 1
  | .structE _ fs => lsize fs + 1
  | .unionE _ fs => lsize fs + 1

/-- Size measure of a field list (also counts the closing delimiter). -/
def lsize : List Encoding → Nat
  | [] => 1
  | e :: es => esize e + lsize es

end

mutual

/-- Well-formedness of an Encoding for round-tripping: struct and union
names contain no `=` (the wire grammar delimits the name by the first
`=`). -/
def wfEnc : Encoding → Bool
  | .prim _ => true
  | .pointer e => wfEnc e
  | .array _ e => wfEnc e
  | .structE nm fs => nm.all (fun c => !(c = '=')) && wfList fs
  | .unionE nm fs => nm.all (fun c => !(c = '=')) && wfList fs

/-- Well-formedness of every Encoding in a field list. -/
def wfList : List Encoding → Bool
  | [] => true
  | e :: es => wfEnc e && wfList es

end

mutual

/-- Modelled from the spec: structural equality of Encodings, the
compatibility relation of spec section 3 (the grammar has no alias nodes,
so resolving named aliases is the identity). -/
def encEq : Encoding → Encoding → Bool
  | .prim p, .prim q => p = q
  | .pointer e, .pointer f => encEq e f
  | .array n e, .array m f => n = m && encEq e f
  | .structE nm fs, .structE nm2 gs => nm = nm2 && encListEq fs gs
  | .unionE nm fs, .unionE nm2 gs => nm = nm2 && encListEq fs gs
  | _, _ => false

/-- Component-wise structural equality of Encoding lists, arity included. -/
def encListEq : List Encoding → List Encoding → Bool
  | [], [] => true
  | e :: es, f :: fs => encEq e f && encListEq es fs
  | _, _ => false

end

/-- Modelled from the spec: `matches(declared, actual)` of spec section
4.1 — compatibility of two Encodings. -/
def matchesEnc (declared actual : Encoding) : Bool :=
  encEq declared actual

/-- Modelled from the spec: component-wise signature verification, in
order, arity included (spec section 4.1). -/
def matchesSig (declared actual : List Encoding) : Bool :=
  encListEq declared actual

mutual

/-- Modelled from the spec: raw values crossing the dispatch boundary —
scalars (registers) or aggregates of field values (the `message` module is
missing from the sources). -/
inductive Value where
  | scalar (n : Int)
  | aggregate (fields : List Value)

end

mutual

/-- Modelled from the spec: the zero value of a return Encoding, produced
for nil receivers (spec section 7, NilReceiver). -/
def zeroValue : Encoding → Value
  | .prim _ => .scalar 0
  | .pointer _ => .scalar 0
  | .array n e => .aggregate (List.replicate n (zeroValue e))
  | .structE _ fs => .aggregate (zeroValues fs)
  | .unionE _ fs => .aggregate (zeroValues fs)

/-- Zero values of a field list. -/
def zeroValues : List Encoding → List Value
  | [] => []
  | e :: es => zeroValue e :: zeroValues es

end

/-- Modelled from the spec: the error taxonomy of spec section 7 that
dispatch itself can surface. -/
inductive DispatchError where
  | methodNotFound
  | signatureMismatch
deriving DecidableEq

/-- Modelled from the spec: a method table entry — declared argument
Encodings and return Encoding (spec section 3, Class). -/
structure MethodEntry where
  args : List Encoding
  ret : Encoding

/-- Modelled from the spec: a Class — name, optional superclass link, and
a method table mapping selector strings to entries (spec section 3). -/
structure ClassDef where
  name : String
  superclass : Option String
  table : List (String × MethodEntry)

/-- Modelled from the spec: selector arity is the number of colons in the
interned selector string (spec section 4.2). -/
def colonArity (sel : String) : Nat :=
  sel.data.count ':'

/-- Find a registered class by name. -/
def lookupClass (classes : List ClassDef) (n : String) : Option ClassDef :=
  classes.find? (fun c => c.name == n)

/-- Modelled from the spec: resolve a method entry for (class, selector)
by walking the superclass chain until an entry is found (spec section 4.2);
fuel bounds the walk. -/
def resolveMethod (classes : List ClassDef) :
    Nat → String → String → Option MethodEntry
  | 0, _, _ => none
  | fuel + 1, clsName, selName =>
    match lookupClass classes clsName with
    | none => none
    | some c =>
      match c.table.lookup selName with
      | some entry => some entry
      | none =>
        match c.superclass with
        | some sup => resolveMethod classes fuel sup selName
        | none => none

/-- Modelled from the spec: classification of the return Encoding that
selects the raw entry-point shape (spec section 4.3 step 3); the exact
size split is architecture-defined, modelled here by the node count. -/
inductive RetClass where
  | scalarRegister
  | floatingPointPath
  | smallAggregate
  | largeAggregate
deriving DecidableEq

/-- Modelled from the spec: classify the return Encoding (spec 4.3). -/
def classifyRet (e : Encoding) : RetClass :=
  match e with
  | .prim .floatK => .floatingPointPath
  | .prim .doubleK => .floatingPointPath
  | .prim _ => .scalarRegister
  | .pointer _ => .scalarRegister
  | .array _ _ => if esize e ≤ 4 then .smallAggregate else .largeAggregate
  | .structE _ _ => if esize e ≤ 4 then .smallAggregate else .largeAggregate
  | .unionE _ _ => if esize e ≤ 4 then .smallAggregate else .largeAggregate

/-- Modelled from the spec: result of a dispatch, together with the log of
foreign invocations performed (selector and entry-point shape), so that
"before any foreign call is attempted" is observable. -/
structure DispatchResult where
  result : Except DispatchError Value
  calls : List (String × RetClass)

/-- Modelled from the spec: the dispatch algorithm of spec section 4.3.
A nil receiver succeeds with the return Encoding's zero value and no
foreign call (spec section 7, NilReceiver).  Colon-implied arity must
match the argument count at every call site, independent of which class
owns the implementation (spec section 4.2), so it is checked before
method resolution; then the method entry is resolved (MethodNotFound),
the caller-provided argument/return Encodings are verified against the
declared signature (SignatureMismatch), the return Encoding is classified,
and exactly one foreign call is performed.  `foreign` is the abstract
behavior of the foreign entry points. -/
def dispatch (classes : List ClassDef)
    (foreign : String → List Value → Value)
    (recv : Option String) (selName : String)
    (args : List (Encoding × Value)) (ret : Encoding) : DispatchResult :=
  match recv with
  | none => ⟨.ok (zeroValue ret), []⟩
  | some clsName =>
    if args.length ≠ colonArity selName then
      ⟨.error .signatureMismatch, []⟩
    else
      match resolveMethod classes classes.length clsName selName with
      | none => ⟨.error .methodNotFound, []⟩
      | some entry =>
        if matchesSig entry.args (args.map Prod.fst) &&
            matchesEnc entry.ret ret then
          ⟨.ok (foreign selName (args.map Prod.snd)),
           [(selName, classifyRet ret)]⟩
        else
          ⟨.error .signatureMismatch, []⟩

/-- Modelled from the spec: the mock foreign runtime of spec section 8 —
one object's foreign refcount together with counters of the retain and
release calls this layer has performed (the `id` module is missing from
the sources). -/
structure MockRT where
  refcount : Nat
  retains : Nat
  releases : Nat
deriving DecidableEq

/-- Modelled from the spec: one retain call into the foreign runtime. -/
def retainOp (rt : MockRT) : MockRT :=
  ⟨rt.refcount + 1, rt.retains + 1, rt.releases⟩

/-- Modelled from the spec: one release call into the foreign runtime. -/
def releaseOp (rt : MockRT) : MockRT :=
  ⟨rt.refcount - 1, rt.retains, rt.releases + 1⟩

/-- Modelled from the spec: the mock runtime paired with the number of
live Id handles this layer holds on the object. -/
structure OwnState where
  rt : MockRT
  handles : Nat
deriving DecidableEq

/-- Modelled from the spec: `wrap_owned(raw)` — the receiver already holds
the one reference, no retain performed (spec section 4.4); the object
arrives with foreign refcount 1 and one live handle. -/
def wrapOwned : OwnState :=
  ⟨⟨1, 0, 0⟩, 1⟩

/-- Modelled from the spec: `duplicate(&Id<Shared>)` — retains once and
yields one more live handle (spec section 4.4). -/
def duplicate (s : OwnState) : OwnState :=
  ⟨retainOp s.rt, s.handles + 1⟩

/-- Modelled from the spec: destruction of any Id — exactly one release
(spec section 4.4). -/
def destroy (s : OwnState) : OwnState :=
  ⟨releaseOp s.rt, s.handles - 1⟩

/-- Modelled from the spec: `wrap_borrowed_then_retain(raw)` — performs
one retain for a result the caller does not already own (spec 4.4). -/
def wrapBorrowedThenRetain (s : OwnState) : OwnState :=
  ⟨retainOp s.rt, s.handles + 1⟩

/-- Modelled from the spec: `register(&Id<_>)` — installs a weak slot with
the foreign runtime, does not retain, never extends lifetime (spec 4.5);
the mock runtime state is unchanged. -/
def registerWeak (rt : MockRT) : MockRT := rt

/-- Modelled from the spec: `load(&WeakRef)` — if the target is still live
(foreign refcount positive), retains and returns a Shared handle; once the
target is finalized (refcount zero) returns empty, an ordinary checked
`Option` result, not an error (spec sections 4.5 and 7). -/
def weakLoad (rt : MockRT) : Option Unit × MockRT :=
  if rt.refcount = 0 then (none, rt) else (some (), retainOp rt)

/-- Modelled from the spec: operations on the thread-local autorelease
scope stack (spec section 4.6): push a pool marker, autorelease an object
into the topmost pool, pop the top marker releasing its objects. -/
inductive AROp where
  | enter
  | autorelease (obj : Nat)
  | exitScope
deriving DecidableEq

/-- Modelled from the spec: the autorelease state of one thread — the LIFO
stack of pools (each a list of autoreleased objects, oldest first) and the
log of releases performed so far, in order. -/
structure ARState where
  pools : List (List Nat)
  released : List Nat
deriving DecidableEq

/-- Modelled from the spec: one autorelease-scope operation.  `enter`
pushes a fresh pool; `autorelease` appends the object to the topmost pool
and performs no release; `exitScope` pops the top marker and releases
every object autoreleased into it since it was pushed, before the exit
completes.  An `autorelease` or `exitScope` with no active pool is the
error condition of spec section 4.6 and changes nothing here. -/
def arStep (s : ARState) : AROp → ARState
  | .enter => ⟨[] :: s.pools, s.released⟩
  | .autorelease o =>
    match s.pools with
    | [] => s
    | p :: rest => ⟨(p ++ [o]) :: rest, s.released⟩
  | .exitScope =>
    match s.pools with
    | [] => s
    | p :: rest => ⟨rest, s.released ++ p⟩

/-- Run a sequence of autorelease-scope operations. -/
def arRun (s : ARState) (ops : List AROp) : ARState :=
  ops.foldl arStep s

end Core

/-- C10: the `ns_enum!` declaration and the associated consts of
NSImageResizingMode agree under every target configuration, assigning
Stretch = 0 and Tile = 1 exactly when TARGET_ABI_USES_IOS_VALUES holds
(the target is not x86/x86_64, or not macOS) and Stretch = 1, Tile = 0
otherwise. -/
theorem c10_nsimageresizingmode_agree :
    ∀ arch_is_x86_or_x86_64 os_is_macos : Bool,
      ImageResizing.target_abi_uses_ios_values arch_is_x86_or_x86_64
          os_is_macos =
        (!arch_is_x86_or_x86_64 || !os_is_macos) ∧
      ∀ abi : Bool,
        ImageResizing.nsImageResizingModeStretch_enum abi =
          ImageResizing.nsImageResizingModeStretch_const abi ∧
        ImageResizing.nsImageResizingModeTile_enum abi =
          ImageResizing.nsImageResizingModeTile_const abi ∧
        ImageResizing.nsImageResizingModeStretch_enum true = 0 ∧
        ImageResizing.nsImageResizingModeTile_enum true = 1 ∧
        ImageResizing.nsImageResizingModeStretch_enum false = 1 ∧
        ImageResizing.nsImageResizingModeTile_enum false = 0 := by
  decide

/-- C7: a message send to a nil/absent receiver succeeds with the zero
value of the return Encoding, performs no foreign call, and is never an
error. -/
theorem c7_nil_receiver_succeeds
    (classes : List Core.ClassDef)
    (foreign : String → List Core.Value → Core.Value)
    (selName : String) (args : List (Core.Encoding × Core.Value))
    (ret : Core.Encoding) :
    Core.dispatch classes foreign none selName args ret =
      ⟨.ok (Core.zeroValue ret), []⟩ :=
  rfl

/-- C4: a message send whose argument Encoding list is shorter than the
selector's colon-implied arity fails with SignatureMismatch and performs
no foreign call. -/
theorem c4_short_arglist_signature_mismatch
    (classes : List Core.ClassDef)
    (foreign : String → List Core.Value → Core.Value)
    (clsName selName : String) (args : List (Core.Encoding × Core.Value))
    (ret : Core.Encoding)
    (h : args.length < Core.colonArity selName) :
    Core.dispatch classes foreign (some clsName) selName args ret =
      ⟨.error .signatureMismatch, []⟩ := by
  have hne : args.length ≠ Core.colonArity selName := Nat.ne_of_lt h
  simp [Core.dispatch, hne]

/-- Witness for C4: sending `setObject:` (arity 1) with an empty argument
list fails with SignatureMismatch and no foreign call. -/
theorem c4_short_arglist_signature_mismatch_witness :
    ([] : List (Core.Encoding × Core.Value)).length <
      Core.colonArity "setObject:" ∧
    Core.dispatch [] (fun _ _ => Core.Value.scalar 0) (some "NSObject")
        "setObject:" [] (.prim .voidK) =
      ⟨.error .signatureMismatch, []⟩ :=
  ⟨by decide,
   c4_short_arglist_signature_mismatch [] (fun _ _ => Core.Value.scalar 0)
     "NSObject" "setObject:" [] (.prim .voidK) (by decide)⟩

/-- C6: registering a WeakRef never changes the foreign refcount; loading
after the sole strong reference is dropped returns empty; loading while
the target is live returns a Shared handle and performs exactly one
retain; empty is an ordinary Option result. -/
theorem c6_weakref_load
    : (∀ rt : Core.MockRT, Core.registerWeak rt = rt) ∧
      (∀ rt : Core.MockRT, rt.refcount = 0 →
          Core.weakLoad rt = (none, rt)) ∧
      (∀ rt : Core.MockRT, rt.refcount ≠ 0 →
          Core.weakLoad rt = (some (), Core.retainOp rt) ∧
          (Core.weakLoad rt).2.retains = rt.retains + 1 ∧
          (Core.weakLoad rt).2.refcount = rt.refcount + 1) ∧
      (∀ a b : Nat,
          Core.weakLoad (Core.releaseOp ⟨1, a, b⟩) = (none, ⟨0, a, b + 1⟩)) := by
  refine ⟨fun rt => rfl, fun rt h => ?_, fun rt h => ?_, fun a b => rfl⟩
  · simp [Core.weakLoad, h]
  · refine ⟨by simp [Core.weakLoad, h], ?_, ?_⟩ <;> simp [Core.weakLoad, h, Core.retainOp]

/-- Witness for C6: a freshly finalized object loads as empty; a live
object with refcount 1 loads a handle and retains; dropping the sole
strong reference then loading yields empty. -/
theorem c6_weakref_load_witness :
    Core.weakLoad ⟨0, 0, 1⟩ = (none, ⟨0, 0, 1⟩) ∧
    Core.weakLoad ⟨1, 0, 0⟩ = (some (), Core.retainOp ⟨1, 0, 0⟩) ∧
    Core.weakLoad (Core.releaseOp ⟨1, 0, 0⟩) = (none, ⟨0, 0, 1⟩) :=
  ⟨c6_weakref_load.2.1 ⟨0, 0, 1⟩ rfl,
   (c6_weakref_load.2.2.1 ⟨1, 0, 0⟩ (by decide)).1,
   c6_weakref_load.2.2.2 0 0⟩

/-- Duplicating the initial owned handle n times yields foreign refcount
n + 1, n retains, no releases, and n + 1 live handles. -/
theorem duplicate_iter (n : Nat) :
    Core.duplicate^[n] Core.wrapOwned = ⟨⟨n + 1, n, 0⟩, n + 1⟩ := by
  induction n with
  | zero => rfl
  | succ k ih => rw [Function.iterate_succ_apply', ih]; rfl

/-- Destroying k handles performs exactly k releases and decrements the
foreign refcount k times. -/
theorem destroy_iter (k : Nat) (c a b hn : Nat) :
    Core.destroy^[k] ⟨⟨c, a, b⟩, hn⟩ = ⟨⟨c - k, a, b + k⟩, hn - k⟩ := by
  induction k generalizing c b hn with
  | zero => simp
  | succ k ih =>
    rw [Function.iterate_succ_apply]
    show Core.destroy^[k] ⟨⟨c - 1, a, b + 1⟩, hn - 1⟩ = _
    rw [ih]
    have h1 : c - 1 - k = c - (k + 1) := by omega
    have h2 : b + 1 + k = b + (k + 1) := by omega
    have h3 : hn - 1 - k = hn - (k + 1) := by omega
    rw [h1, h2, h3]

/-- C1: retains and releases are exactly balanced per live handle — a
duplication performs exactly one retain and no release, a destruction
performs exactly one release and no retain, and destroying all N + 1
handles of a Shared handle with N live duplicates performs one release
per handle, after which the foreign refcount is observed at zero. -/
theorem c1_retain_release_balance :
    (∀ s : Core.OwnState,
        (Core.duplicate s).rt.retains = s.rt.retains + 1 ∧
        (Core.duplicate s).rt.releases = s.rt.releases ∧
        (Core.duplicate s).rt.refcount = s.rt.refcount + 1) ∧
    (∀ s : Core.OwnState,
        (Core.destroy s).rt.releases = s.rt.releases + 1 ∧
        (Core.destroy s).rt.retains = s.rt.retains) ∧
    (∀ n : Nat,
        Core.destroy^[n + 1] (Core.duplicate^[n] Core.wrapOwned) =
          ⟨⟨0, n, n + 1⟩, 0⟩) := by
  refine ⟨fun s => ⟨rfl, rfl, rfl⟩, fun s => ⟨rfl, rfl⟩, fun n => ?_⟩
  rw [duplicate_iter, destroy_iter]
  simp

/-- Running operations that never pop a pool performs no release. -/
theorem arRun_released_no_exit (ops : List Core.AROp) :
    ∀ s : Core.ARState, (∀ op ∈ ops, op ≠ Core.AROp.exitScope) →
      (Core.arRun s ops).released = s.released := by
  induction ops with
  | nil => intro s _; rfl
  | cons op rest ih =>
    intro s h
    have hop : op ≠ Core.AROp.exitScope := h op (by simp)
    have hrest : ∀ o ∈ rest, o ≠ Core.AROp.exitScope :=
      fun o ho => h o (by simp [ho])
    show (Core.arRun (Core.arStep s op) rest).released = s.released
    rw [ih _ hrest]
    obtain ⟨pools, released⟩ := s
    cases op with
    | enter => rfl
    | autorelease o => cases pools <;> rfl
    | exitScope => exact absurd rfl hop

/-- Autoreleasing a batch of objects appends them to the topmost pool. -/
theorem arRun_autoreleases (xs : List Nat) :
    ∀ (p : List Nat) (ps : List (List Nat)) (r : List Nat),
      Core.arRun ⟨p :: ps, r⟩ (xs.map Core.AROp.autorelease) =
        ⟨(p ++ xs) :: ps, r⟩ := by
  induction xs with
  | nil => intro p ps r; simp [Core.arRun]
  | cons x xs ih =>
    intro p ps r
    show Core.arRun (Core.arStep ⟨p :: ps, r⟩ (Core.AROp.autorelease x))
        (xs.map Core.AROp.autorelease) = _
    rw [show Core.arStep ⟨p :: ps, r⟩ (Core.AROp.autorelease x) =
          (⟨(p ++ [x]) :: ps, r⟩ : Core.ARState) from rfl]
    rw [ih]
    simp

/-- C5: an object autoreleased into a scope is not released before the
scope's guard is destroyed (no release happens while no pool is popped),
and when the guard is destroyed every object autoreleased into the pool
since it was pushed is released — an object autoreleased once is released
exactly once, regardless of how many other objects share the pool — before
the scope's exit completes. -/
theorem c5_autorelease_scope :
    (∀ (s : Core.ARState) (ops : List Core.AROp),
        (∀ op ∈ ops, op ≠ Core.AROp.exitScope) →
        (Core.arRun s ops).released = s.released) ∧
    (∀ (s : Core.ARState) (xs : List Nat) (x : Nat),
        Core.arRun s (Core.AROp.enter ::
            (xs.map Core.AROp.autorelease ++ [Core.AROp.exitScope])) =
          ⟨s.pools, s.released ++ xs⟩ ∧
        (Core.arRun s (Core.AROp.enter ::
            (xs.map Core.AROp.autorelease ++ [Core.AROp.exitScope]))).released.count
            x =
          s.released.count x + xs.count x) := by
  constructor
  · exact fun s ops h => arRun_released_no_exit ops s h
  · intro s xs x
    obtain ⟨pools, released⟩ := s
    have hrun : Core.arRun ⟨pools, released⟩ (Core.AROp.enter ::
        (xs.map Core.AROp.autorelease ++ [Core.AROp.exitScope])) =
        ⟨pools, released ++ xs⟩ := by
      show Core.arRun (Core.arStep ⟨pools, released⟩ Core.AROp.enter)
          (xs.map Core.AROp.autorelease ++ [Core.AROp.exitScope]) = _
      rw [show Core.arStep ⟨pools, released⟩ Core.AROp.enter =
            (⟨[] :: pools, released⟩ : Core.ARState) from rfl]
      unfold Core.arRun
      rw [List.foldl_append]
      rw [show List.foldl Core.arStep ⟨[] :: pools, released⟩
            (xs.map Core.AROp.autorelease) =
          Core.arRun ⟨[] :: pools, released⟩ (xs.map Core.AROp.autorelease)
          from rfl]
      rw [arRun_autoreleases]
      simp [Core.arStep]
    refine ⟨hrun, ?_⟩
    rw [hrun]
    simp [List.count_append]

/-- Witness for C5: entering a scope and autoreleasing objects 5 and 7
releases nothing until the guard is destroyed, at which point both are
released exactly once. -/
theorem c5_autorelease_scope_witness :
    (Core.arRun ⟨[], []⟩ [Core.AROp.enter, Core.AROp.autorelease 5,
        Core.AROp.autorelease 7]).released = [] ∧
    Core.arRun ⟨[], []⟩ (Core.AROp.enter ::
        (([5, 7] : List Nat).map Core.AROp.autorelease ++
          [Core.AROp.exitScope])) =
      ⟨[], [5, 7]⟩ ∧
    (Core.arRun ⟨[], []⟩ (Core.AROp.enter ::
        (([5, 7] : List Nat).map Core.AROp.autorelease ++
          [Core.AROp.exitScope]))).released.count 7 = 1 :=
  ⟨c5_autorelease_scope.1 ⟨[], []⟩ _ (by decide),
   (c5_autorelease_scope.2 ⟨[], []⟩ [5, 7] 7).1,
   (c5_autorelease_scope.2 ⟨[], []⟩ [5, 7] 7).2⟩

/-- Every Encoding has at least one grammar node. -/
theorem esize_pos (e : Core.Encoding) : 0 < Core.esize e := by
  cases e <;> simp [Core.esize]

/-- Every field list has positive size measure. -/
theorem lsize_pos (es : List Core.Encoding) : 0 < Core.lsize es := by
  cases es with
  | nil => simp [Core.lsize]
  | cons e es =>
    have := esize_pos e
    simp [Core.lsize]
    omega

mutual

/-- Structural Encoding equality decides propositional equality. -/
theorem encEq_iff : ∀ e f : Core.Encoding, (Core.encEq e f = true) ↔ e = f
  | .prim _, .prim _ => by simp [Core.encEq]
  | .prim _, .pointer _ => by simp [Core.encEq]
  | .prim _, .array _ _ => by simp [Core.encEq]
  | .prim _, .structE _ _ => by simp [Core.encEq]
  | .prim _, .unionE _ _ => by simp [Core.encEq]
  | .pointer _, .prim _ => by simp [Core.encEq]
  | .pointer e1, .pointer f1 => by
      simp only [Core.encEq, encEq_iff e1 f1, Core.Encoding.pointer.injEq]
  | .pointer _, .array _ _ => by simp [Core.encEq]
  | .pointer _, .structE _ _ => by simp [Core.encEq]
  | .pointer _, .unionE _ _ => by simp [Core.encEq]
  | .array _ _, .prim _ => by simp [Core.encEq]
  | .array _ _, .pointer _ => by simp [Core.encEq]
  | .array n e1, .array m f1 => by
      simp only [Core.encEq, Bool.and_eq_true, decide_eq_true_eq,
        encEq_iff e1 f1, Core.Encoding.array.injEq]
  | .array _ _, .structE _ _ => by simp [Core.encEq]
  | .array _ _, .unionE _ _ => by simp [Core.encEq]
  | .structE _ _, .prim _ => by simp [Core.encEq]
  | .structE _ _, .pointer _ => by simp [Core.encEq]
  | .structE _ _, .array _ _ => by simp [Core.encEq]
  | .structE nm fs, .structE nm2 gs => by
      simp only [Core.encEq, Bool.and_eq_true, decide_eq_true_eq,
        encListEq_iff fs gs, Core.Encoding.structE.injEq]
  | .structE _ _, .unionE _ _ => by simp [Core.encEq]
  | .unionE _ _, .prim _ => by simp [Core.encEq]
  | .unionE _ _, .pointer _ => by simp [Core.encEq]
  | .unionE _ _, .array _ _ => by simp [Core.encEq]
  | .unionE _ _, .structE _ _ => by simp [Core.encEq]
  | .unionE nm fs, .unionE nm2 gs => by
      simp only [Core.encEq, Bool.and_eq_true, decide_eq_true_eq,
        encListEq_iff fs gs, Core.Encoding.unionE.injEq]

/-- Component-wise structural equality of Encoding lists decides
propositional equality (arity mismatches are unequal). -/
theorem encListEq_iff :
    ∀ es fs : List Core.Encoding, (Core.encListEq es fs = true) ↔ es = fs
  | [], [] => by simp [Core.encListEq]
  | [], _ :: _ => by simp [Core.encListEq]
  | _ :: _, [] => by simp [Core.encListEq]
  | e :: es, f :: fs => by
      simp only [Core.encListEq, Bool.and_eq_true, encEq_iff e f,
        encListEq_iff es fs, List.cons.injEq]

end

/-- C3: `matches` returns true for every pair of Encodings that are
structurally equal after resolving named aliases (the identity resolution
in this grammar), and false for every pair differing in arity or in any
component, compared component-wise in order. -/
theorem c3_matches_compatibility :
    (∀ d a : Core.Encoding, Core.matchesEnc d a = true ↔ d = a) ∧
    (∀ xs ys : List Core.Encoding, Core.matchesSig xs ys = true ↔ xs = ys) ∧
    (∀ xs ys : List Core.Encoding, xs.length ≠ ys.length →
        Core.matchesSig xs ys = false) := by
  refine ⟨fun d a => encEq_iff d a, fun xs ys => encListEq_iff xs ys,
    fun xs ys h => ?_⟩
  cases hb : Core.matchesSig xs ys
  · rfl
  · exact absurd (congrArg List.length ((encListEq_iff xs ys).1 hb)) h

/-- Witness for C3: a one-element signature does not match an empty one. -/
theorem c3_matches_compatibility_witness :
    ([Core.Encoding.prim .sint] : List Core.Encoding).length ≠
      ([] : List Core.Encoding).length ∧
    Core.matchesSig [Core.Encoding.prim .sint] [] = false :=
  ⟨by decide,
   c3_matches_compatibility.2.2 [Core.Encoding.prim .sint] [] (by decide)⟩

/-- C8: when the generated fn_names of two methods of the same class in
one file collide, the global analysis appends "_class" to the class
method's fn_name when exactly one of the two is a class method (leaving
the other unchanged), and otherwise replaces both fn_names by the
respective selector with every colon replaced by an underscore; this holds
both for two methods in one statement and for methods split across an
ExternMethods and an ExternCategory statement of the same class. -/
theorem c8_fn_name_collision {T A K V : Type} (itt : T → String → Bool)
    (cls f sel1 sel2 : String) (b1 b2 : Bool) :
    HeaderTranslator.updateFile itt
        [HeaderTranslator.Stmt.methodsDecl (T := T) (A := A) (K := K)
          (V := V) cls [⟨f, sel1, b1⟩, ⟨f, sel2, b2⟩]] =
      [HeaderTranslator.Stmt.methodsDecl cls
        (if b1 = b2 then
          [⟨HeaderTranslator.replaceColons sel1, sel1, b1⟩,
           ⟨HeaderTranslator.replaceColons sel2, sel2, b2⟩]
         else if b2 then
          [⟨f, sel1, b1⟩, ⟨f ++ "_class", sel2, b2⟩]
         else
          [⟨f ++ "_class", sel1, b1⟩, ⟨f, sel2, b2⟩])] ∧
    HeaderTranslator.updateFile itt
        [HeaderTranslator.Stmt.methodsDecl (T := T) (A := A) (K := K)
          (V := V) cls [⟨f, sel1, b1⟩],
         HeaderTranslator.Stmt.categoryDecl cls [⟨f, sel2, b2⟩]] =
      (if b1 = b2 then
        [HeaderTranslator.Stmt.methodsDecl cls
          [⟨HeaderTranslator.replaceColons sel1, sel1, b1⟩],
         HeaderTranslator.Stmt.categoryDecl cls
          [⟨HeaderTranslator.replaceColons sel2, sel2, b2⟩]]
       else if b2 then
        [HeaderTranslator.Stmt.methodsDecl cls [⟨f, sel1, b1⟩],
         HeaderTranslator.Stmt.categoryDecl cls [⟨f ++ "_class", sel2, b2⟩]]
       else
        [HeaderTranslator.Stmt.methodsDecl cls [⟨f ++ "_class", sel1, b1⟩],
         HeaderTranslator.Stmt.categoryDecl cls [⟨f, sel2, b2⟩]]) := by
  cases b1 <;> cases b2 <;>
    simp [HeaderTranslator.updateFile, HeaderTranslator.disambiguate,
      HeaderTranslator.methodLocs, HeaderTranslator.disambiguateStep,
      HeaderTranslator.getMethodAt, HeaderTranslator.setMethodAt,
      HeaderTranslator.lookupName, HeaderTranslator.Stmt.methodsOf,
      HeaderTranslator.Stmt.setMethods, HeaderTranslator.fixupAliasEnum,
      List.range_succ]

/-- C9: an AliasDecl with kind None is removed from a file's statement
list exactly when it is immediately followed by an EnumDecl whose
underlying type is a typedef to the alias's name; in that case the enum
takes over the alias's id and type, and every statement other than such an
alias is preserved, in its original relative position. -/
theorem c9_alias_enum_fixup {T A K V : Type} (itt : T → String → Bool) :
    (∀ (id : String) (av : A) (ty : T) (eid : String) (eav : A) (ety : T)
        (k : Option K) (v : List V) (s : Option Bool)
        (rest : List (HeaderTranslator.Stmt T A K V)),
        (itt ety id = true →
          HeaderTranslator.fixupAliasEnum itt
              (.aliasDecl id av ty none ::
                .enumDecl eid eav ety k v s :: rest) =
            .enumDecl id eav ty k v s ::
              HeaderTranslator.fixupAliasEnum itt rest) ∧
        (itt ety id = false →
          HeaderTranslator.fixupAliasEnum itt
              (.aliasDecl id av ty none ::
                .enumDecl eid eav ety k v s :: rest) =
            .aliasDecl id av ty none :: .enumDecl eid eav ety k v s ::
              HeaderTranslator.fixupAliasEnum itt rest)) ∧
    (∀ (id : String) (av : A) (ty : T) (kk : K)
        (rest : List (HeaderTranslator.Stmt T A K V)),
        HeaderTranslator.fixupAliasEnum itt
            (.aliasDecl id av ty (some kk) :: rest) =
          .aliasDecl id av ty (some kk) ::
            HeaderTranslator.fixupAliasEnum itt rest) ∧
    (∀ (id : String) (av : A) (ty : T)
        (rest : List (HeaderTranslator.Stmt T A K V)),
        HeaderTranslator.enumHeaded rest = false →
        HeaderTranslator.fixupAliasEnum itt
            (.aliasDecl id av ty none :: rest) =
          .aliasDecl id av ty none ::
            HeaderTranslator.fixupAliasEnum itt rest) ∧
    (∀ (st : HeaderTranslator.Stmt T A K V)
        (rest : List (HeaderTranslator.Stmt T A K V)),
        st.isAliasNone = false →
        HeaderTranslator.fixupAliasEnum itt (st :: rest) =
          st :: HeaderTranslator.fixupAliasEnum itt rest) := by
  refine ⟨fun id av ty eid eav ety k v s rest => ⟨fun h => ?_, fun h => ?_⟩,
    fun id av ty kk rest => ?_, fun id av ty rest h => ?_,
    fun st rest h => ?_⟩
  · simp [HeaderTranslator.fixupAliasEnum, h]
  · simp [HeaderTranslator.fixupAliasEnum, h]
  · simp [HeaderTranslator.fixupAliasEnum]
  · cases rest with
    | nil => simp [HeaderTranslator.fixupAliasEnum]
    | cons s2 r2 =>
      cases s2 <;>
        simp_all [HeaderTranslator.fixupAliasEnum, HeaderTranslator.enumHeaded]
  · cases st with
    | aliasDecl i a t k =>
      cases k with
      | none => simp_all [HeaderTranslator.Stmt.isAliasNone]
      | some kk => simp [HeaderTranslator.fixupAliasEnum]
    | methodsDecl c ms => simp [HeaderTranslator.fixupAliasEnum]
    | categoryDecl c ms => simp [HeaderTranslator.fixupAliasEnum]
    | protocolDecl i ms => simp [HeaderTranslator.fixupAliasEnum]
    | enumDecl i a t k v s => simp [HeaderTranslator.fixupAliasEnum]
    | otherStmt => simp [HeaderTranslator.fixupAliasEnum]

/-- Witness for C9: a kind-less alias immediately followed by an enum
typedef'd to it is dropped and the enum takes its id and type; an alias
not followed by such an enum is preserved. -/
theorem c9_alias_enum_fixup_witness :
    HeaderTranslator.fixupAliasEnum (T := String) (A := Unit) (K := Unit)
        (V := Unit) (fun t n => t == n)
        [.aliasDecl "Mode" () "NSInteger" none,
         .enumDecl "ModeEnum" () "Mode" none [] none] =
      [.enumDecl "Mode" () "NSInteger" none [] none] ∧
    HeaderTranslator.fixupAliasEnum (T := String) (A := Unit) (K := Unit)
        (V := Unit) (fun t n => t == n)
        [.aliasDecl "Mode" () "NSInteger" none] =
      [.aliasDecl "Mode" () "NSInteger" none] := by
  constructor
  · exact (((c9_alias_enum_fixup (T := String) (A := Unit) (K := Unit)
      (V := Unit) (fun t n => t == n)).1 "Mode" () "NSInteger" "ModeEnum" ()
      "Mode" none [] none []).1 (by decide)).trans
      (by simp [HeaderTranslator.fixupAliasEnum])
  · exact ((c9_alias_enum_fixup (T := String) (A := Unit) (K := Unit)
      (V := Unit) (fun t n => t == n)).2.2.1 "Mode" () "NSInteger" []
      (by decide)).trans (by simp [HeaderTranslator.fixupAliasEnum])

/-- The character of a decimal digit is a digit character. -/
theorem isDigitCh_digitChar (d : Nat) (h : d < 10) :
    Core.isDigitCh (Core.digitChar d) = true := by
  interval_cases d <;> decide

/-- Reading back the character of a decimal digit gives the digit. -/
theorem digitVal_digitChar (d : Nat) (h : d < 10) :
    Core.digitVal (Core.digitChar d) = d := by
  interval_cases d <;> decide

/-- `natDigitsAux` produces a nonempty prefix of decimal digits whose
positional value is the input, in front of the accumulator. -/
theorem natDigitsAux_spec (fuel : Nat) :
    ∀ n acc, n < fuel →
      ∃ ds, Core.natDigitsAux fuel n acc = ds ++ acc ∧ ds ≠ [] ∧
        (∀ d ∈ ds, d < 10) ∧
        ds.foldl (fun a d => a * 10 + d) 0 = n := by
  induction fuel with
  | zero => intro n acc h; omega
  | succ fuel ih =>
    intro n acc h
    by_cases h10 : n < 10
    · refine ⟨[n], by simp [Core.natDigitsAux, h10], by simp, ?_, by simp⟩
      intro d hd
      simp at hd
      omega
    · have hdiv : n / 10 < fuel := by
        have := Nat.div_lt_self (by omega : 0 < n) (by omega : 1 < 10)
        omega
      obtain ⟨ds, heq, hne, hlt, hval⟩ := ih (n / 10) (n % 10 :: acc) hdiv
      refine ⟨ds ++ [n % 10], ?_, by simp, ?_, ?_⟩
      · simp only [Core.natDigitsAux, if_neg h10, heq, List.append_assoc,
          List.singleton_append]
      · intro d hd
        rcases List.mem_append.1 hd with hd | hd
        · exact hlt d hd
        · simp at hd
          omega
      · rw [List.foldl_append, hval]
        simp only [List.foldl_cons, List.foldl_nil]
        omega

/-- `natDigits` produces the nonempty decimal digits of its input. -/
theorem natDigits_spec (n : Nat) :
    Core.natDigits n ≠ [] ∧ (∀ d ∈ Core.natDigits n, d < 10) ∧
      (Core.natDigits n).foldl (fun a d => a * 10 + d) 0 = n := by
  obtain ⟨ds, heq, hne, hlt, hval⟩ := natDigitsAux_spec (n + 1) n [] (by omega)
  rw [List.append_nil] at heq
  rw [Core.natDigits, heq]
  exact ⟨hne, hlt, hval⟩

/-- `parseNatAux` consumes exactly a digit-character run, accumulating its
positional value, when the remainder does not start with a digit. -/
theorem parseNatAux_digits (ds : List Nat) :
    ∀ (rest : List Char) (acc : Nat), (∀ d ∈ ds, d < 10) →
      (∀ c, rest.head? = some c → Core.isDigitCh c = false) →
      Core.parseNatAux (ds.map Core.digitChar ++ rest) acc =
        (ds.foldl (fun a d => a * 10 + d) acc, rest) := by
  induction ds with
  | nil =>
    intro rest acc _ hrest
    cases rest with
    | nil => rfl
    | cons c cs =>
      have hc := hrest c rfl
      simp [Core.parseNatAux, hc]
  | cons d ds ih =>
    intro rest acc hds hrest
    have hd : d < 10 := hds d (by simp)
    simp only [List.map_cons, List.cons_append, Core.parseNatAux,
      isDigitCh_digitChar d hd, if_true, digitVal_digitChar d hd,
      List.foldl_cons]
    exact ih rest (acc * 10 + d) (fun x hx => hds x (by simp [hx])) hrest

/-- Round-trip for array lengths: parsing the decimal spelling of n in
front of a non-digit remainder yields n and the remainder. -/
theorem parseNat_natToChars (n : Nat) (rest : List Char)
    (hrest : ∀ c, rest.head? = some c → Core.isDigitCh c = false) :
    Core.parseNat (Core.natToChars n ++ rest) = some (n, rest) := by
  obtain ⟨hne, hlt, hval⟩ := natDigits_spec n
  rw [Core.natToChars]
  cases hds : Core.natDigits n with
  | nil => exact absurd hds hne
  | cons d0 ds =>
    rw [hds] at hlt hval
    have hd0 : d0 < 10 := hlt d0 (by simp)
    simp only [List.map_cons, List.cons_append, Core.parseNat,
      isDigitCh_digitChar d0 hd0, if_true]
    rw [parseNatAux_digits ds rest (Core.digitVal (Core.digitChar d0))
      (fun x hx => hlt x (by simp [hx])) hrest]
    simp only [List.foldl_cons, Nat.zero_mul, Nat.zero_add] at hval
    rw [digitVal_digitChar d0 hd0, hval]

/-- Round-trip for struct/union names: parsing a name free of `=` followed
by `=` and a remainder yields the name and the remainder. -/
theorem parseName_roundtrip (nm : List Char) :
    ∀ rest : List Char, (∀ c ∈ nm, ¬(c = '=')) →
      Core.parseName (nm ++ '=' :: rest) = some (nm, rest) := by
  induction nm with
  | nil => intro rest _; simp [Core.parseName]
  | cons c cs ih =>
    intro rest h
    have hc : ¬(c = '=') := h c (by simp)
    have hr := ih rest (fun x hx => h x (by simp [hx]))
    simp [Core.parseName, hc, hr]

/-- The first character of any serialized Encoding is not a digit and not
a closing delimiter. -/
theorem serialize_head (e : Core.Encoding) :
    ∃ c cs, Core.serialize e = c :: cs ∧ Core.isDigitCh c = false ∧
      ¬(c = '\x7d') ∧ ¬(c = ')') := by
  cases e with
  | prim p => cases p <;> exact ⟨_, _, rfl, by decide, by decide, by decide⟩
  | pointer e => exact ⟨'^', _, rfl, by decide, by decide, by decide⟩
  | array n e => exact ⟨'[', _, rfl, by decide, by decide, by decide⟩
  | structE nm fs => exact ⟨'\x7b', _, rfl, by decide, by decide, by decide⟩
  | unionE nm fs => exact ⟨'(', _, rfl, by decide, by decide, by decide⟩

mutual

/-- Parsing the serialization of a well-formed Encoding in front of any
remainder consumes exactly the serialization and returns the Encoding,
given fuel at least its node count. -/
theorem parseEnc_serialize :
    ∀ (e : Core.Encoding) (fuel : Nat) (rest : List Char),
      Core.esize e ≤ fuel → Core.wfEnc e = true →
      Core.parseEnc fuel (Core.serialize e ++ rest) = some (e, rest)
  | .prim p, fuel, rest, hf, _ => by
      cases fuel with
      | zero => exfalso; have := esize_pos (Core.Encoding.prim p); omega
      | succ f =>
        cases p <;>
          simp [Core.serialize, Core.Prim.toChar, Core.parseEnc,
            Core.primOfChar]
  | .pointer e1, fuel, rest, hf, hwf => by
      cases fuel with
      | zero => exfalso; have := esize_pos (Core.Encoding.pointer e1); omega
      | succ f =>
        have h1 : Core.esize e1 ≤ f := by
          have h2 : Core.esize (Core.Encoding.pointer e1) =
              Core.esize e1 + 1 := by simp [Core.esize]
          omega
        have hw1 : Core.wfEnc e1 = true := by
          simpa [Core.wfEnc] using hwf
        have hrec := parseEnc_serialize e1 f rest h1 hw1
        simp only [Core.serialize, List.cons_append]
        simp [Core.parseEnc, hrec]
  | .array n e1, fuel, rest, hf, hwf => by
      cases fuel with
      | zero => exfalso; have := esize_pos (Core.Encoding.array n e1); omega
      | succ f =>
        have h1 : Core.esize e1 ≤ f := by
          have h2 : Core.esize (Core.Encoding.array n e1) =
              Core.esize e1 + 1 := by simp [Core.esize]
          omega
        have hw1 : Core.wfEnc e1 = true := by
          simpa [Core.wfEnc] using hwf
        obtain ⟨c, cs, hs, hdig, hc1, hc2⟩ := serialize_head e1
        have hhead : ∀ ch,
            (Core.serialize e1 ++ ']' :: rest).head? = some ch →
            Core.isDigitCh ch = false := by
          rw [hs]
          intro ch hch
          simp at hch
          rw [← hch]
          exact hdig
        have hpn := parseNat_natToChars n
          (Core.serialize e1 ++ ']' :: rest) hhead
        have hrec := parseEnc_serialize e1 f (']' :: rest) h1 hw1
        simp only [Core.serialize, List.cons_append, List.append_assoc,
          List.singleton_append]
        simp [Core.parseEnc, hpn, hrec]
  | .structE nm fs, fuel, rest, hf, hwf => by
      cases fuel with
      | zero =>
        exfalso; have := esize_pos (Core.Encoding.structE nm fs); omega
      | succ f =>
        have hl : Core.lsize fs ≤ f := by
          have h2 : Core.esize (Core.Encoding.structE nm fs) =
              Core.lsize fs + 1 := by simp [Core.esize]
          omega
        have hwf2 : nm.all (fun c => !(c = '=')) = true ∧
            Core.wfList fs = true := by
          simpa [Core.wfEnc, Bool.and_eq_true] using hwf
        have hnm : ∀ c ∈ nm, ¬(c = '=') := by
          intro c hc
          have := (List.all_eq_true.1 hwf2.1) c hc
          simpa using this
        have hpn := parseName_roundtrip nm
          (Core.serializeList fs ++ '\x7d' :: rest) hnm
        have hrec := parseFields_serializeList fs f '\x7d' rest hl hwf2.2
          (Or.inl rfl)
        simp only [Core.serialize, List.cons_append, List.append_assoc,
          List.singleton_append]
        simp [Core.parseEnc, hpn, hrec]
  | .unionE nm fs, fuel, rest, hf, hwf => by
      cases fuel with
      | zero =>
        exfalso; have := esize_pos (Core.Encoding.unionE nm fs); omega
      | succ f =>
        have hl : Core.lsize fs ≤ f := by
          have h2 : Core.esize (Core.Encoding.unionE nm fs) =
              Core.lsize fs + 1 := by simp [Core.esize]
          omega
        have hwf2 : nm.all (fun c => !(c = '=')) = true ∧
            Core.wfList fs = true := by
          simpa [Core.wfEnc, Bool.and_eq_true] using hwf
        have hnm : ∀ c ∈ nm, ¬(c = '=') := by
          intro c hc
          have := (List.all_eq_true.1 hwf2.1) c hc
          simpa using this
        have hpn := parseName_roundtrip nm
          (Core.serializeList fs ++ ')' :: rest) hnm
        have hrec := parseFields_serializeList fs f ')' rest hl hwf2.2
          (Or.inr rfl)
        simp only [Core.serialize, List.cons_append, List.append_assoc,
          List.singleton_append]
        simp [Core.parseEnc, hpn, hrec]

/-- Parsing the serialization of a well-formed field list followed by its
closing delimiter consumes exactly that segment and returns the fields. -/
theorem parseFields_serializeList :
    ∀ (fs : List Core.Encoding) (fuel : Nat) (close : Char)
      (rest : List Char),
      Core.lsize fs ≤ fuel → Core.wfList fs = true →
      (close = '\x7d' ∨ close = ')') →
      Core.parseFields fuel close
          (Core.serializeList fs ++ close :: rest) = some (fs, rest)
  | [], fuel, close, rest, hf, _, _ => by
      cases fuel with
      | zero => exfalso; have := lsize_pos ([] : List Core.Encoding); omega
      | succ f => simp [Core.serializeList, Core.parseFields]
  | e :: es, fuel, close, rest, hf, hwf, hc => by
      cases fuel with
      | zero => exfalso; have := lsize_pos (e :: es); omega
      | succ f =>
        have hsz : Core.lsize (e :: es) =
            Core.esize e + Core.lsize es := by simp [Core.lsize]
        have he : Core.esize e ≤ f := by
          have := lsize_pos es; omega
        have hes : Core.lsize es ≤ f := by
          have := esize_pos e; omega
        have hwf2 : Core.wfEnc e = true ∧ Core.wfList es = true := by
          simpa [Core.wfList, Bool.and_eq_true] using hwf
        obtain ⟨c, cs, hs, hdig, hc1, hc2⟩ := serialize_head e
        have hcc : ¬(c = close) := by
          rcases hc with h | h <;> rw [h] <;> assumption
        have hrec1 := parseEnc_serialize e f
          (Core.serializeList es ++ close :: rest) he hwf2.1
        have hrec2 := parseFields_serializeList es f close rest hes hwf2.2 hc
        rw [hs] at hrec1
        rw [show Core.serializeList (e :: es) =
              Core.serialize e ++ Core.serializeList es from by
            simp [Core.serializeList]]
        rw [List.append_assoc, hs]
        simp only [List.cons_append]
        simp only [List.cons_append] at hrec1
        simp [Core.parseFields, hcc, hrec1, hrec2]

end

mutual

/-- An Encoding has no more grammar nodes than serialized characters. -/
theorem esize_le_serialize :
    ∀ e : Core.Encoding, Core.esize e ≤ (Core.serialize e).length
  | .prim p => by simp [Core.esize, Core.serialize]
  | .pointer e => by
      have := esize_le_serialize e
      simp [Core.esize, Core.serialize]
      omega
  | .array n e => by
      have := esize_le_serialize e
      simp [Core.esize, Core.serialize]
      omega
  | .structE nm fs => by
      have := lsize_le_serializeList fs
      simp [Core.esize, Core.serialize]
      omega
  | .unionE nm fs => by
      have := lsize_le_serializeList fs
      simp [Core.esize, Core.serialize]
      omega

/-- A field list's size measure is bounded by its serialization length
plus one (for the closing delimiter). -/
theorem lsize_le_serializeList :
    ∀ fs : List Core.Encoding,
      Core.lsize fs ≤ (Core.serializeList fs).length + 1
  | [] => by simp [Core.lsize, Core.serializeList]
  | e :: es => by
      have h1 := esize_le_serialize e
      have h2 := lsize_le_serializeList es
      simp [Core.lsize, Core.serializeList]
      omega

end

/-- C2: for every well-formed Encoding string the core emits (the
serialization of a well-formed Encoding, which is its own canonical form),
parsing and re-serializing yields that same canonical string; parsing
recovers exactly the Encoding that was serialized. -/
theorem c2_encoding_roundtrip (e : Core.Encoding)
    (hwf : Core.wfEnc e = true) :
    Core.parse (Core.serialize e) = some e ∧
    Option.map Core.serialize (Core.parse (Core.serialize e)) =
      some (Core.serialize e) := by
  have hfuel : Core.esize e ≤ (Core.serialize e).length + 1 :=
    le_trans (esize_le_serialize e) (by omega)
  have h := parseEnc_serialize e ((Core.serialize e).length + 1) [] hfuel hwf
  rw [List.append_nil] at h
  unfold Core.parse
  rw [h]
  exact ⟨rfl, rfl⟩

/-- Witness for C2: the CGPoint-like struct encoding round-trips. -/
theorem c2_encoding_roundtrip_witness :
    Core.wfEnc (.structE ['C', 'G', 'P', 'o', 'i', 'n', 't']
      [.prim .doubleK, .prim .doubleK]) = true ∧
    Core.parse (Core.serialize (.structE ['C', 'G', 'P', 'o', 'i', 'n', 't']
      [.prim .doubleK, .prim .doubleK])) =
      some (.structE ['C', 'G', 'P', 'o', 'i', 'n', 't']
        [.prim .doubleK, .prim .doubleK]) :=
  ⟨by decide,
   (c2_encoding_roundtrip
     (.structE ['C', 'G', 'P', 'o', 'i', 'n', 't']
       [.prim .doubleK, .prim .doubleK]) (by decide)).1⟩
